import Mathlib

/-!
Verification of the crafty package manager (src/main.rs) against its
specification.  The catalog-matching core of the program is embedded
shallowly: filenames are lists of characters, the three Rust regexes are
translated into executable parsers over those lists, and the ledger,
archive validation and catalog-fetch pipeline are modelled as pure
functions.  Rust's regex classes `\d` and the case-folding of
`str::to_lowercase` are modelled on ASCII, which is exact for the
package filenames this tool manipulates.
-/

/-- The fixed archive suffix `.pkg.tar.zst` shared by every pattern in the
source. -/
def zstSuffixL : List Char := ".pkg.tar.zst".toList

/-- The optional prefix accepted by `find_package_file`'s pattern
`(?:archcraft-)?`. -/
def archcraftL : List Char := "archcraft-".toList

/-- A character of the class `[\d\.]` used for the version component in
`find_package_file`, `find_packages_by_keyword` and `get_all_packages`. -/
def isVChar (c : Char) : Bool := c.isDigit || c == '.'

/-- Split a character list at its first `'-'`: returns the (dash-free)
segment before it and the remainder after it, or `none` when no dash
occurs.  This realises how the anchored regexes force the version and
release components to end exactly at the next literal `-`. -/
def firstSeg : List Char → Option (List Char × List Char)
  | [] => none
  | c :: rest =>
    if c = '-' then some ([], rest)
    else match firstSeg rest with
         | some (a, b) => some (c :: a, b)
         | none => none

/-- State-machine acceptor for the strict version grammar `\d+(\.\d+)*`
of the name-extraction regex in `install_package`.  The flag records
whether the current numeric group is nonempty. -/
def svAux : List Char → Bool → Bool
  | [], b => b
  | c :: rest, b =>
    if c.isDigit then svAux rest true
    else if c = '.' then b && svAux rest false
    else false

/-- `strictVersion v` holds iff `v` matches `\d+(\.\d+)*`: one or more
dot-separated nonempty numeric groups. -/
def strictVersion (v : List Char) : Bool := svAux v false

/-- Acceptor for the tail `-[\d\.]+-\d+-(any|x86_64)\.pkg\.tar\.zst$` of
the catalog regexes (the loose version class shared by
`find_package_file`, `find_packages_by_keyword` and
`get_all_packages`). -/
def tailLoose (t : List Char) : Bool :=
  match t with
  | [] => false
  | c :: u =>
    decide (c = '-') &&
    (match firstSeg u with
     | some (v, u₁) =>
       (!v.isEmpty) && v.all isVChar &&
       (match firstSeg u₁ with
        | some (r, u₂) =>
          (!r.isEmpty) && r.all Char.isDigit &&
          (decide (u₂ = "any".toList ++ zstSuffixL) ||
           decide (u₂ = "x86_64".toList ++ zstSuffixL))
        | none => false)
     | none => false)

/-- Acceptor for the tail `-\d+(\.\d+)*-\d+-[^-]+\.pkg\.tar\.zst$` of the
name-extraction regex in `install_package` (strict version, arbitrary
dash-free architecture component). -/
def tailStrict (t : List Char) : Bool :=
  match t with
  | [] => false
  | c :: u =>
    decide (c = '-') &&
    (match firstSeg u with
     | some (v, u₁) =>
       strictVersion v &&
       (match firstSeg u₁ with
        | some (r, u₂) =>
          (!r.isEmpty) && r.all Char.isDigit &&
          decide (12 < u₂.length) &&
          (!(u₂.take (u₂.length - 12)).isEmpty) &&
          (u₂.take (u₂.length - 12)).all (fun c => !(c == '-')) &&
          decide (u₂.drop (u₂.length - 12) = zstSuffixL)
        | none => false)
     | none => false)

/-- `noNl l` holds when `l` has no newline: the leading `.+` of the
catalog and extraction regexes cannot cross a newline (Rust's `.` does
not match `\n`). -/
def noNl (l : List Char) : Bool := l.all (fun c => !(c == '\n'))

/-- Scan for the greedy split of `file` into a leading name `.+` (no
newline, nonempty) and a tail accepted by `t`: indices are tried from
the longest name down, exactly as the backtracking regex engine commits
to the longest `.+` first.  Returns the captured name. -/
def nameSplitAux (t : List Char → Bool) (file : List Char) : Nat → Option (List Char)
  | 0 => none
  | k + 1 =>
    if noNl (file.take (k + 1)) && t (file.drop (k + 1)) then
      some (file.take (k + 1))
    else
      nameSplitAux t file k

/-- `is_match` of the shared catalog regex
`^(.+)-[\d\.]+-\d+-(any|x86_64)\.pkg\.tar\.zst$` of `get_all_packages`
(the same pattern, with a named group, is used by
`find_packages_by_keyword`). -/
def pkgPatternMatch (f : List Char) : Bool :=
  (nameSplitAux tailLoose f f.length).isSome

/-- `get_all_packages`, given the catalog of names already extracted from
the listing: keeps exactly the entries matching the shared catalog
regex. -/
def get_all_packages (catalog : List (List Char)) : List (List Char) :=
  catalog.filter pkgPatternMatch

/-- ASCII model of `str::to_lowercase`. -/
def lowerL (s : List Char) : List Char := s.map Char.toLower

/-- Substring test, as Rust's `str::contains` with a string pattern. -/
def containsSub (s pat : List Char) : Bool :=
  match s with
  | [] => pat.isEmpty
  | _ :: rest => pat.isPrefixOf s || containsSub rest pat

/-- The per-entry test of `find_packages_by_keyword`: capture the
`pkg_name` group of the catalog regex and test the lowercased keyword
against the lowercased name component only. -/
def keywordAccepts (keyword f : List Char) : Bool :=
  match nameSplitAux tailLoose f f.length with
  | some n => containsSub (lowerL n) (lowerL keyword)
  | none => false

/-- `find_packages_by_keyword`, given the catalog of names: keeps the
entries whose name component contains the keyword
(case-insensitively). -/
def find_packages_by_keyword (catalog : List (List Char)) (keyword : List Char) :
    List (List Char) :=
  catalog.filter (keywordAccepts keyword)

/-- The per-entry test of `find_package_file`'s regex
`^(?:archcraft-)?{pkg}-[\d\.]+-\d+-(any|x86_64)\.pkg\.tar\.zst$`, where
`{pkg}` is inserted through `regex::escape` and therefore matches only
the literal queried name. -/
def matchesExact (pkg e : List Char) : Bool :=
  (pkg.isPrefixOf e && tailLoose (e.drop pkg.length)) ||
  ((archcraftL ++ pkg).isPrefixOf e && tailLoose (e.drop (archcraftL ++ pkg).length))

/-- `find_package_file`, given the catalog of names: returns the first
entry matching the exact-name pattern, or `none`. -/
def find_package_file (catalog : List (List Char)) (pkg : List Char) :
    Option (List Char) :=
  catalog.find? (matchesExact pkg)

/-- The ledger-name computation of `install_package`: capture the `name`
group of `^(?P<name>.+)-\d+(\.\d+)*-\d+-[^-]+\.pkg\.tar\.zst$` against
the resolved filename, falling back to the full filename when the regex
does not match (`unwrap_or_else`). -/
def pkg_real_name (file : List Char) : List Char :=
  match nameSplitAux tailStrict file file.length with
  | some n => n
  | none => file

/-- The installed-package ledger (`PackageDb`): a set of names. -/
structure PackageDb where
  packages : Finset (List Char)
deriving DecidableEq

/-- `PackageDb::add`: insert into the set (the immediate `save` has no
effect on the in-memory state). -/
def PackageDb.add (db : PackageDb) (pkg : List Char) : PackageDb :=
  ⟨insert pkg db.packages⟩

/-- `PackageDb::remove`. -/
def PackageDb.remove (db : PackageDb) (pkg : List Char) : PackageDb :=
  ⟨db.packages.erase pkg⟩

/-- `PackageDb::contains`. -/
def PackageDb.containsPkg (db : PackageDb) (pkg : List Char) : Bool :=
  decide (pkg ∈ db.packages)

/-- `PackageDb::default()`: the empty ledger. -/
def PackageDb.empty : PackageDb := ⟨∅⟩

/-- `PackageDb::load`, with the filesystem and serde modelled as
parameters: `ex` is `path.exists()`, `readResult` the outcome of
`fs::read_to_string` (`none` = unreadable), and `parse` models
`serde_json::from_str::<PackageDb>`.  `unwrap_or_default` appears twice,
exactly as in the source. -/
def PackageDb.load (ex : Bool) (readResult : Option String)
    (parse : String → Option PackageDb) : PackageDb :=
  if ex then
    (parse (readResult.getD "")).getD PackageDb.empty
  else
    PackageDb.empty

/-- The zstd magic number checked by `is_valid_zst`. -/
def zstMagic : List Nat := [0x28, 0xb5, 0x2f, 0xfd]

/-- `is_valid_zst`, with `fs::read` modelled as an optional byte list:
a read failure yields `false`, otherwise the content must start with the
zstd magic. -/
def is_valid_zst (content : Option (List Nat)) : Bool :=
  match content with
  | some bytes => zstMagic.isPrefixOf bytes
  | none => false

/-- Modelled from the spec: the archive-filename grammar of the data
model, `[prefix-]name-version-release-arch.pkg.tar.zst` where `version`
is one or more dot-separated numeric groups, `release` is an integer and
`arch` is `any` or `x86_64`.  Used to compare the code's looser catalog
filter against the spec's grammar. -/
def specTail (t : List Char) : Bool :=
  match t with
  | [] => false
  | c :: u =>
    decide (c = '-') &&
    (match firstSeg u with
     | some (v, u₁) =>
       strictVersion v &&
       (match firstSeg u₁ with
        | some (r, u₂) =>
          (!r.isEmpty) && r.all Char.isDigit &&
          (decide (u₂ = "any".toList ++ zstSuffixL) ||
           decide (u₂ = "x86_64".toList ++ zstSuffixL))
        | none => false)
     | none => false)

/-- Modelled from the spec: a catalog entry is grammar-valid when it
splits into a nonempty name and a `specTail` suffix. -/
def specScanAux (f : List Char) : Nat → Bool
  | 0 => false
  | k + 1 => specTail (f.drop (k + 1)) || specScanAux f k

/-- Modelled from the spec: validity of a filename under the spec's
archive-filename grammar. -/
def specValidFilename (f : List Char) : Bool := specScanAux f f.length

/-- JSON values, as the subset of `serde_json::Value` structure the
fetch pipeline inspects. -/
inductive Json where
  | null
  | bool (b : Bool)
  | num (n : Int)
  | str (s : String)
  | arr (items : List Json)
  | obj (fields : List (String × Json))

/-- `serde_json::Value::get` with a string key: field lookup on an
object, `none` on everything else. -/
def Json.get : Json → String → Option Json
  | .obj fields, key => fields.lookup key
  | _, _ => none

/-- `Value::as_str`. -/
def Json.asString : Json → Option String
  | .str s => some s
  | _ => none

/-- `Value::as_array`. -/
def Json.asArray : Json → Option (List Json)
  | .arr items => some items
  | _ => none

/-- The opening marker of the embedded JSON blob. -/
def startML : List Char :=
  "<script type=\"application/json\" data-target=\"react-app.embeddedData\">".toList

/-- The closing marker of the embedded JSON blob. -/
def endML : List Char := "</script>".toList

/-- `str::find` with a string pattern: index of the first occurrence. -/
def findSubstr (s pat : List Char) : Option Nat :=
  match s with
  | [] => if pat.isEmpty then some 0 else none
  | _ :: rest =>
    if pat.isPrefixOf s then some 0
    else (findSubstr rest pat).map (· + 1)

/-- The marker-delimited span extraction shared by `find_package_file`,
`find_packages_by_keyword` and `get_all_packages`: everything between
the end of the first opening marker and the next closing marker. -/
def extractJsonSpan (r : List Char) : Option (List Char) :=
  match findSubstr r startML with
  | none => none
  | some i =>
    match findSubstr (r.drop (i + startML.length)) endML with
    | none => none
    | some e => some ((r.drop (i + startML.length)).take e)

/-- `json.pointer("/payload/tree/items")` followed by `as_array`. -/
def treeItems (j : Json) : Option (List Json) :=
  (((j.get "payload").bind (fun x => x.get "tree")).bind
    (fun x => x.get "items")).bind Json.asArray

/-- Per-item name extraction: `item.get("name").and_then(|n| n.as_str())`. -/
def itemName (it : Json) : Option String := (it.get "name").bind Json.asString

/-- The raw name strings of the items, skipping items without a string
`name` field, exactly as each consumer loop does. -/
def itemNames (items : List Json) : List String := items.filterMap itemName

/-- The catalog-fetch stage shared by `find_package_file`,
`find_packages_by_keyword` and `get_all_packages` (the spec's
`fetch_catalog`): the network response is a parameter (`none` = request
failed), as is the JSON parser modelling `serde_json::from_str`. -/
def fetch_catalog (resp : Option (List Char))
    (parseJson : List Char → Option Json) : Option (List String) :=
  match resp with
  | none => none
  | some r =>
    match extractJsonSpan r with
    | none => none
    | some sp =>
      match parseJson sp with
      | none => none
      | some j =>
        match treeItems j with
        | none => none
        | some items => some (itemNames items)

/-! ### Basic lemmas about the string-scanning primitives -/

theorem isPrefixOf_iff_append {α : Type} [BEq α] [LawfulBEq α] {l₁ l₂ : List α} :
    l₁.isPrefixOf l₂ = true ↔ ∃ t, l₂ = l₁ ++ t := by
  induction l₁ generalizing l₂ with
  | nil => simp [List.isPrefixOf]
  | cons c cs ih =>
    cases l₂ with
    | nil => simp [List.isPrefixOf]
    | cons d ds =>
      simp only [List.isPrefixOf, Bool.and_eq_true, beq_iff_eq, ih, List.cons_append,
        List.cons.injEq]
      constructor
      · rintro ⟨rfl, t, rfl⟩; exact ⟨t, rfl, rfl⟩
      · rintro ⟨t, rfl, rfl⟩; exact ⟨rfl, t, rfl⟩

theorem firstSeg_eq_some : ∀ {u v rest : List Char}, firstSeg u = some (v, rest) →
    u = v ++ '-' :: rest ∧ ∀ c ∈ v, c ≠ '-' := by
  intro u
  induction u with
  | nil => intro v rest h; simp [firstSeg] at h
  | cons c cs ih =>
    intro v rest h
    by_cases hc : c = '-'
    · subst hc
      simp only [firstSeg, if_pos rfl, Option.some.injEq, Prod.mk.injEq] at h
      obtain ⟨rfl, rfl⟩ := h
      exact ⟨rfl, by simp⟩
    · simp only [firstSeg, if_neg hc] at h
      cases hfs : firstSeg cs with
      | none => rw [hfs] at h; simp at h
      | some p =>
        obtain ⟨a, b⟩ := p
        rw [hfs] at h
        simp only [Option.some.injEq, Prod.mk.injEq] at h
        obtain ⟨rfl, rfl⟩ := h
        obtain ⟨h1, h2⟩ := ih hfs
        constructor
        · simp [h1]
        · intro x hx
          rcases List.mem_cons.mp hx with rfl | hx
          · exact hc
          · exact h2 x hx

theorem firstSeg_append : ∀ {v rest : List Char}, (∀ c ∈ v, c ≠ '-') →
    firstSeg (v ++ '-' :: rest) = some (v, rest) := by
  intro v
  induction v with
  | nil => intro rest _; simp [firstSeg]
  | cons c cs ih =>
    intro rest h
    have hc : c ≠ '-' := h c (List.mem_cons_self c cs)
    simp only [List.cons_append, firstSeg, if_neg hc, List.append_eq]
    rw [ih (fun x hx => h x (List.mem_cons_of_mem c hx))]

/-- The segment after the last dash of a string is unique: two
decompositions `u ++ '-' :: a` with dash-free `a` agree. -/
theorem lastSeg_unique : ∀ {u₁ a₁ u₂ a₂ : List Char},
    (∀ c ∈ a₁, c ≠ '-') → (∀ c ∈ a₂, c ≠ '-') →
    u₁ ++ '-' :: a₁ = u₂ ++ '-' :: a₂ → u₁ = u₂ ∧ a₁ = a₂ := by
  intro u₁
  induction u₁ with
  | nil =>
    intro a₁ u₂ a₂ h₁ h₂ h
    cases u₂ with
    | nil => simpa using h
    | cons d ds =>
      exfalso
      simp only [List.nil_append, List.cons_append, List.cons.injEq] at h
      obtain ⟨rfl, h⟩ := h
      exact h₁ '-' (h ▸ List.mem_append_right ds (List.mem_cons_self '-' a₂)) rfl
  | cons c cs ih =>
    intro a₁ u₂ a₂ h₁ h₂ h
    cases u₂ with
    | nil =>
      exfalso
      simp only [List.nil_append, List.cons_append, List.cons.injEq] at h
      obtain ⟨rfl, h⟩ := h
      exact h₂ '-' (h ▸ List.mem_append_right cs (List.mem_cons_self '-' a₁)) rfl
    | cons d ds =>
      simp only [List.cons_append, List.cons.injEq] at h
      obtain ⟨rfl, h⟩ := h
      obtain ⟨h3, h4⟩ := ih h₁ h₂ h
      exact ⟨by rw [h3], h4⟩

/-! ### Dash-freeness of the version, release and architecture classes -/

theorem isVChar_ne_dash {c : Char} (h : isVChar c = true) : c ≠ '-' := by
  rintro rfl; simp [isVChar] at h

theorem isDigit_ne_dash {c : Char} (h : c.isDigit = true) : c ≠ '-' := by
  rintro rfl; simp at h

theorem all_isVChar_ne_dash {v : List Char} (h : v.all isVChar = true) :
    ∀ c ∈ v, c ≠ '-' := fun c hc =>
  isVChar_ne_dash (List.all_eq_true.mp h c hc)

theorem all_isDigit_ne_dash {r : List Char} (h : r.all Char.isDigit = true) :
    ∀ c ∈ r, c ≠ '-' := fun c hc =>
  isDigit_ne_dash (List.all_eq_true.mp h c hc)

theorem svAux_chars : ∀ {v : List Char} {b : Bool}, svAux v b = true →
    ∀ c ∈ v, isVChar c = true := by
  intro v
  induction v with
  | nil => intro b _ c hc; simp at hc
  | cons d ds ih =>
    intro b h c hc
    by_cases hd : d.isDigit = true
    · rw [svAux, if_pos hd] at h
      rcases List.mem_cons.mp hc with rfl | hc
      · simp [isVChar, hd]
      · exact ih h c hc
    · by_cases hdot : d = '.'
      · rw [svAux, if_neg hd, if_pos hdot] at h
        rcases List.mem_cons.mp hc with rfl | hc
        · simp [isVChar, hdot]
        · exact ih (Bool.and_eq_true .. ▸ h).2 c hc
      · rw [svAux, if_neg hd, if_neg hdot] at h
        exact absurd h (by simp)

theorem strictVersion_ne_dash {v : List Char} (h : strictVersion v = true) :
    ∀ c ∈ v, c ≠ '-' := fun c hc =>
  isVChar_ne_dash (svAux_chars h c hc)

theorem zstSuffixL_ne_dash : ∀ c ∈ zstSuffixL, c ≠ '-' := by decide

/-! ### Uniqueness of the `name-version-release-arch` decomposition -/

/-- Two decompositions of the same string into
`x ++ "-" ++ v ++ "-" ++ r ++ "-" ++ a ++ ".pkg.tar.zst"` with dash-free
`v`, `r`, `a` coincide componentwise.  This is why the greedy `.+` name
group of the source regexes captures a uniquely determined name. -/
theorem tails_eq {x₁ v₁ r₁ a₁ x₂ v₂ r₂ a₂ : List Char}
    (hv₁ : ∀ c ∈ v₁, c ≠ '-') (hr₁ : ∀ c ∈ r₁, c ≠ '-') (ha₁ : ∀ c ∈ a₁, c ≠ '-')
    (hv₂ : ∀ c ∈ v₂, c ≠ '-') (hr₂ : ∀ c ∈ r₂, c ≠ '-') (ha₂ : ∀ c ∈ a₂, c ≠ '-')
    (h : x₁ ++ '-' :: (v₁ ++ '-' :: (r₁ ++ '-' :: (a₁ ++ zstSuffixL))) =
         x₂ ++ '-' :: (v₂ ++ '-' :: (r₂ ++ '-' :: (a₂ ++ zstSuffixL)))) :
    x₁ = x₂ ∧ v₁ = v₂ ∧ r₁ = r₂ ∧ a₁ = a₂ := by
  have regroup : ∀ (x v r rest : List Char),
      x ++ '-' :: (v ++ '-' :: (r ++ '-' :: rest)) =
      ((x ++ '-' :: v) ++ '-' :: r) ++ '-' :: rest := by
    intro x v r rest
    simp [List.append_assoc]
  rw [regroup, regroup] at h
  have haS₁ : ∀ c ∈ a₁ ++ zstSuffixL, c ≠ '-' := by
    intro c hc
    rcases List.mem_append.mp hc with h' | h'
    · exact ha₁ c h'
    · exact zstSuffixL_ne_dash c h'
  have haS₂ : ∀ c ∈ a₂ ++ zstSuffixL, c ≠ '-' := by
    intro c hc
    rcases List.mem_append.mp hc with h' | h'
    · exact ha₂ c h'
    · exact zstSuffixL_ne_dash c h'
  obtain ⟨h1, h2⟩ := lastSeg_unique haS₁ haS₂ h
  have ha : a₁ = a₂ := List.append_cancel_right h2
  obtain ⟨h3, h4⟩ := lastSeg_unique hr₁ hr₂ h1
  obtain ⟨h5, h6⟩ := lastSeg_unique hv₁ hv₂ h3
  exact ⟨h5, h6, h4, ha⟩

/-! ### Characterisations of the tail acceptors -/

theorem tailLoose_iff {t : List Char} :
    tailLoose t = true ↔
    ∃ v r a, t = '-' :: (v ++ '-' :: (r ++ '-' :: (a ++ zstSuffixL))) ∧
      v ≠ [] ∧ v.all isVChar = true ∧ r ≠ [] ∧ r.all Char.isDigit = true ∧
      (a = "any".toList ∨ a = "x86_64".toList) := by
  constructor
  · intro h
    cases t with
    | nil => simp [tailLoose] at h
    | cons c u =>
      rw [tailLoose, Bool.and_eq_true, decide_eq_true_eq] at h
      obtain ⟨rfl, h⟩ := h
      cases hfs : firstSeg u with
      | none => rw [hfs] at h; simp at h
      | some p =>
        obtain ⟨v, u₁⟩ := p
        rw [hfs] at h
        simp only [Bool.and_eq_true, Bool.not_eq_true', List.isEmpty_eq_false] at h
        obtain ⟨⟨hv, hva⟩, h⟩ := h
        cases hfs₁ : firstSeg u₁ with
        | none => rw [hfs₁] at h; simp at h
        | some q =>
          obtain ⟨r, u₂⟩ := q
          rw [hfs₁] at h
          simp only [Bool.and_eq_true, Bool.or_eq_true, Bool.not_eq_true',
            List.isEmpty_eq_false, decide_eq_true_eq] at h
          obtain ⟨⟨hr, hra⟩, harch⟩ := h
          obtain ⟨hu, _⟩ := firstSeg_eq_some hfs
          obtain ⟨hu₁, _⟩ := firstSeg_eq_some hfs₁
          rcases harch with h2 | h2
          · exact ⟨v, r, "any".toList, by rw [hu, hu₁, h2], hv, hva, hr, hra, Or.inl rfl⟩
          · exact ⟨v, r, "x86_64".toList, by rw [hu, hu₁, h2], hv, hva, hr, hra, Or.inr rfl⟩
  · rintro ⟨v, r, a, rfl, hv, hva, hr, hra, harch⟩
    rw [tailLoose, Bool.and_eq_true, decide_eq_true_eq]
    refine ⟨rfl, ?_⟩
    rw [firstSeg_append (all_isVChar_ne_dash hva)]
    simp only [Bool.and_eq_true, Bool.not_eq_true', List.isEmpty_eq_false]
    refine ⟨⟨hv, hva⟩, ?_⟩
    rw [firstSeg_append (all_isDigit_ne_dash hra)]
    simp only [Bool.and_eq_true, Bool.or_eq_true, Bool.not_eq_true',
      List.isEmpty_eq_false, decide_eq_true_eq]
    rcases harch with rfl | rfl
    · exact ⟨⟨hr, hra⟩, Or.inl rfl⟩
    · exact ⟨⟨hr, hra⟩, Or.inr rfl⟩

theorem tailStrict_iff {t : List Char} :
    tailStrict t = true ↔
    ∃ v r a, t = '-' :: (v ++ '-' :: (r ++ '-' :: (a ++ zstSuffixL))) ∧
      strictVersion v = true ∧ r ≠ [] ∧ r.all Char.isDigit = true ∧
      a ≠ [] ∧ ∀ c ∈ a, c ≠ '-' := by
  have hlen : zstSuffixL.length = 12 := by decide
  constructor
  · intro h
    cases t with
    | nil => simp [tailStrict] at h
    | cons c u =>
      rw [tailStrict, Bool.and_eq_true, decide_eq_true_eq] at h
      obtain ⟨rfl, h⟩ := h
      cases hfs : firstSeg u with
      | none => rw [hfs] at h; simp at h
      | some p =>
        obtain ⟨v, u₁⟩ := p
        rw [hfs] at h
        simp only [Bool.and_eq_true] at h
        obtain ⟨hsv, h⟩ := h
        cases hfs₁ : firstSeg u₁ with
        | none => rw [hfs₁] at h; simp at h
        | some q =>
          obtain ⟨r, u₂⟩ := q
          rw [hfs₁] at h
          simp only [Bool.and_eq_true, Bool.not_eq_true', List.isEmpty_eq_false,
            decide_eq_true_eq] at h
          obtain ⟨⟨⟨⟨⟨hr, hra⟩, _⟩, hAne⟩, hAnd⟩, hdrop⟩ := h
          obtain ⟨hu, _⟩ := firstSeg_eq_some hfs
          obtain ⟨hu₁, _⟩ := firstSeg_eq_some hfs₁
          refine ⟨v, r, u₂.take (u₂.length - 12), ?_, hsv, hr, hra, hAne, ?_⟩
          · rw [hu, hu₁]
            have : u₂ = u₂.take (u₂.length - 12) ++ zstSuffixL := by
              conv_lhs => rw [← List.take_append_drop (u₂.length - 12) u₂]
              rw [hdrop]
            rw [← this]
          · intro x hx
            have := List.all_eq_true.mp hAnd x hx
            simpa using this
  · rintro ⟨v, r, a, rfl, hsv, hr, hra, ha, hand⟩
    rw [tailStrict, Bool.and_eq_true, decide_eq_true_eq]
    refine ⟨rfl, ?_⟩
    rw [firstSeg_append (strictVersion_ne_dash hsv)]
    simp only [Bool.and_eq_true]
    refine ⟨hsv, ?_⟩
    rw [firstSeg_append (all_isDigit_ne_dash hra)]
    have hlen' : (a ++ zstSuffixL).length = a.length + 12 := by
      rw [List.length_append, hlen]
    have hsub : (a ++ zstSuffixL).length - 12 = a.length := by omega
    have htake : (a ++ zstSuffixL).take ((a ++ zstSuffixL).length - 12) = a := by
      rw [hsub]; exact List.take_left a zstSuffixL
    have hdrop : (a ++ zstSuffixL).drop ((a ++ zstSuffixL).length - 12) = zstSuffixL := by
      rw [hsub]; exact List.drop_left a zstSuffixL
    have hgt : 12 < (a ++ zstSuffixL).length := by
      have : 0 < a.length := List.length_pos.mpr ha
      omega
    have hallA : a.all (fun c => !(c == '-')) = true :=
      List.all_eq_true.mpr fun c hc => by simpa using hand c hc
    simp only [Bool.and_eq_true, Bool.not_eq_true', List.isEmpty_eq_false,
      decide_eq_true_eq, htake, hdrop]
    exact ⟨⟨⟨⟨⟨hr, hra⟩, hgt⟩, ha⟩, hallA⟩, by trivial⟩

/-! ### The greedy name scan -/

theorem nameSplitAux_eq_some {t : List Char → Bool} {f : List Char} :
    ∀ {b : Nat} {n : List Char}, nameSplitAux t f b = some n →
    ∃ k, 1 ≤ k ∧ k ≤ b ∧ n = f.take k ∧ noNl (f.take k) = true ∧ t (f.drop k) = true := by
  intro b
  induction b with
  | zero => intro n h; simp [nameSplitAux] at h
  | succ b ih =>
    intro n h
    rw [nameSplitAux] at h
    by_cases hc : (noNl (f.take (b + 1)) && t (f.drop (b + 1))) = true
    · rw [if_pos hc] at h
      rw [Bool.and_eq_true] at hc
      obtain ⟨h1, h2⟩ := hc
      obtain rfl : f.take (b + 1) = n := Option.some.inj h
      exact ⟨b + 1, by omega, by omega, rfl, h1, h2⟩
    · rw [if_neg hc] at h
      obtain ⟨k, hk1, hk2, h3, h4, h5⟩ := ih h
      exact ⟨k, hk1, by omega, h3, h4, h5⟩

theorem nameSplitAux_isSome {t : List Char → Bool} {f : List Char} :
    ∀ {b k : Nat}, 1 ≤ k → k ≤ b → noNl (f.take k) = true → t (f.drop k) = true →
    (nameSplitAux t f b).isSome = true := by
  intro b
  induction b with
  | zero => intro k h1 h2 _ _; omega
  | succ b ih =>
    intro k h1 h2 h3 h4
    rw [nameSplitAux]
    by_cases hc : (noNl (f.take (b + 1)) && t (f.drop (b + 1))) = true
    · rw [if_pos hc]; rfl
    · rw [if_neg hc]
      rcases Nat.lt_or_ge k (b + 1) with hlt | hge
      · exact ih h1 (by omega) h3 h4
      · exfalso
        have : k = b + 1 := by omega
        subst this
        rw [Bool.and_eq_true] at hc
        exact hc ⟨h3, h4⟩

theorem nameSplitAux_eq_none {t : List Char → Bool} {f : List Char} {b k : Nat}
    (h : nameSplitAux t f b = none) (h1 : 1 ≤ k) (h2 : k ≤ b)
    (h3 : noNl (f.take k) = true) : t (f.drop k) = false := by
  by_contra hne
  have h4 : t (f.drop k) = true := by
    cases hv : t (f.drop k) with
    | false => exact absurd hv hne
    | true => rfl
  have := @nameSplitAux_isSome t f b k h1 h2 h3 h4
  rw [h] at this
  simp at this

/-! ### Characterisation of the exact-name matcher -/

theorem matchesExact_iff {pkg e : List Char} :
    matchesExact pkg e = true ↔
    ∃ p v r a, (p = [] ∨ p = archcraftL) ∧
      e = p ++ pkg ++ '-' :: (v ++ '-' :: (r ++ '-' :: (a ++ zstSuffixL))) ∧
      v ≠ [] ∧ v.all isVChar = true ∧ r ≠ [] ∧ r.all Char.isDigit = true ∧
      (a = "any".toList ∨ a = "x86_64".toList) := by
  rw [matchesExact, Bool.or_eq_true, Bool.and_eq_true, Bool.and_eq_true]
  constructor
  · rintro (⟨hp, ht⟩ | ⟨hp, ht⟩)
    · obtain ⟨s, rfl⟩ := isPrefixOf_iff_append.mp hp
      rw [List.drop_left] at ht
      obtain ⟨v, r, a, rfl, hv, hva, hr, hra, harch⟩ := tailLoose_iff.mp ht
      exact ⟨[], v, r, a, Or.inl rfl, by simp, hv, hva, hr, hra, harch⟩
    · obtain ⟨s, rfl⟩ := isPrefixOf_iff_append.mp hp
      rw [List.drop_left] at ht
      obtain ⟨v, r, a, rfl, hv, hva, hr, hra, harch⟩ := tailLoose_iff.mp ht
      exact ⟨archcraftL, v, r, a, Or.inr rfl, by simp, hv, hva, hr, hra, harch⟩
  · rintro ⟨p, v, r, a, hp, rfl, hv, hva, hr, hra, harch⟩
    have htail : tailLoose ('-' :: (v ++ '-' :: (r ++ '-' :: (a ++ zstSuffixL)))) = true :=
      tailLoose_iff.mpr ⟨v, r, a, rfl, hv, hva, hr, hra, harch⟩
    rcases hp with rfl | rfl
    · rw [List.nil_append]
      exact Or.inl ⟨isPrefixOf_iff_append.mpr
        ⟨'-' :: (v ++ '-' :: (r ++ '-' :: (a ++ zstSuffixL))), rfl⟩,
        by rw [List.drop_left]; exact htail⟩
    · exact Or.inr ⟨isPrefixOf_iff_append.mpr
        ⟨'-' :: (v ++ '-' :: (r ++ '-' :: (a ++ zstSuffixL))), rfl⟩,
        by rw [List.drop_left]; exact htail⟩

/-! ### Claims C9, C8, C5, C6, C4 -/

/-- C9: archive validation accepts a readable file iff its content begins
with the four zstd magic bytes `28 B5 2F FD`; any byte sequence with that
prefix passes, and one starting with the zip magic `50 4B 03 04` fails. -/
theorem C9_zst_magic_check :
    (∀ bytes : List Nat, is_valid_zst (some bytes) = true ↔ ∃ t, bytes = zstMagic ++ t) ∧
    (∀ rest : List Nat, is_valid_zst (some (0x28 :: 0xb5 :: 0x2f :: 0xfd :: rest)) = true) ∧
    (∀ rest : List Nat, is_valid_zst (some (0x50 :: 0x4b :: 0x03 :: 0x04 :: rest)) = false) := by
  refine ⟨?_, ?_, ?_⟩
  · intro bytes
    rw [is_valid_zst]
    exact isPrefixOf_iff_append
  · intro rest
    simp [is_valid_zst, zstMagic, List.isPrefixOf]
  · intro rest
    simp [is_valid_zst, zstMagic, List.isPrefixOf]

/-- C8: ledger `load` never fails: a missing file, an unreadable file
(where reading falls back to the empty string) and content that does not
parse all yield the empty ledger. -/
theorem C8_load_never_fails (readResult : Option String)
    (parse : String → Option PackageDb) :
    PackageDb.load false readResult parse = PackageDb.empty ∧
    (∀ s, parse s = none → PackageDb.load true (some s) parse = PackageDb.empty) ∧
    (parse "" = none → PackageDb.load true none parse = PackageDb.empty) := by
  refine ⟨rfl, ?_, ?_⟩
  · intro s h
    simp [PackageDb.load, h]
  · intro h
    simp [PackageDb.load, h]

/-- Witness for C8 at a concrete failing parser and content. -/
theorem C8_witness :
    PackageDb.load true (some "not json") (fun _ => none) = PackageDb.empty :=
  (C8_load_never_fails (some "not json") (fun _ => none)).2.1 "not json" rfl

theorem containsSub_nil (s : List Char) : containsSub s [] = true := by
  cases s <;> rfl

/-- C5: searching with the empty keyword returns exactly the same list,
in the same order, as the full listing: the empty keyword matches every
grammar-valid entry. -/
theorem C5_empty_keyword (catalog : List (List Char)) :
    find_packages_by_keyword catalog "".toList = get_all_packages catalog := by
  rw [find_packages_by_keyword, get_all_packages]
  apply List.filter_congr
  intro f _
  rw [keywordAccepts, pkgPatternMatch]
  cases h : nameSplitAux tailLoose f f.length with
  | none => rfl
  | some n =>
    rw [Option.isSome]
    exact containsSub_nil (lowerL n)

/-- C6: the queried package name is matched literally by `resolve_exact`:
an entry matches iff it is exactly the (optionally `archcraft-`-prefixed)
name followed by a well-formed `-version-release-arch.pkg.tar.zst` tail;
in particular the metacharacter `.` in a queried name does not act as a
wildcard. -/
theorem C6_exact_name_literal :
    (∀ pkg e : List Char, matchesExact pkg e = true ↔
      ∃ p v r a, (p = [] ∨ p = archcraftL) ∧
        e = p ++ pkg ++ '-' :: (v ++ '-' :: (r ++ '-' :: (a ++ zstSuffixL))) ∧
        v ≠ [] ∧ v.all isVChar = true ∧ r ≠ [] ∧ r.all Char.isDigit = true ∧
        (a = "any".toList ∨ a = "x86_64".toList)) ∧
    matchesExact "a.c".toList "axc-1-1-any.pkg.tar.zst".toList = false ∧
    matchesExact "a.c".toList "a.c-1-1-any.pkg.tar.zst".toList = true := by
  refine ⟨fun pkg e => matchesExact_iff, by decide, by decide⟩

/-- C4: `find_package_file` returns the first catalog entry, in catalog
order, satisfying the exact-name pattern, and `none` (a normal result)
exactly when no entry satisfies it. -/
theorem C4_first_match_or_notfound (catalog : List (List Char)) (pkg : List Char) :
    (∀ f, find_package_file catalog pkg = some f →
      ∃ l₁ l₂, catalog = l₁ ++ f :: l₂ ∧ matchesExact pkg f = true ∧
        ∀ g ∈ l₁, matchesExact pkg g = false) ∧
    (find_package_file catalog pkg = none ↔ ∀ e ∈ catalog, matchesExact pkg e = false) := by
  induction catalog with
  | nil =>
    refine ⟨?_, ?_⟩
    · intro f h
      simp [find_package_file] at h
    · simp [find_package_file]
  | cons c cs ih =>
    cases hc : matchesExact pkg c with
    | true =>
      have hfind : find_package_file (c :: cs) pkg = some c := by
        rw [find_package_file, List.find?_cons_of_pos _ hc]
      refine ⟨?_, ?_⟩
      · intro f h
        rw [hfind] at h
        obtain rfl : c = f := Option.some.inj h
        exact ⟨[], cs, rfl, hc, by simp⟩
      · rw [hfind]
        constructor
        · intro h; exact absurd h (by simp)
        · intro h
          have := h c (List.mem_cons_self c cs)
          rw [hc] at this
          exact absurd this (by simp)
    | false =>
      have hfind : find_package_file (c :: cs) pkg = find_package_file cs pkg := by
        rw [find_package_file, find_package_file, List.find?_cons_of_neg _ (by simp [hc])]
      refine ⟨?_, ?_⟩
      · intro f h
        rw [hfind] at h
        obtain ⟨l₁, l₂, heq, hm, hall⟩ := ih.1 f h
        refine ⟨c :: l₁, l₂, by rw [heq, List.cons_append], hm, ?_⟩
        intro g hg
        rcases List.mem_cons.mp hg with rfl | hg
        · exact hc
        · exact hall g hg
      · rw [hfind, ih.2]
        constructor
        · intro h e he
          rcases List.mem_cons.mp he with rfl | he
          · exact hc
          · exact h e he
        · intro h e he
          exact h e (List.mem_cons_of_mem c he)

/-- Witness for C4 at a concrete catalog: the query `fish` resolves to
the one grammar-valid entry, skipping the non-matching entry before
it. -/
theorem C4_witness :
    ∃ l₁ l₂, ["notes.txt".toList, "archcraft-fish-3.6.1-1-x86_64.pkg.tar.zst".toList] =
        l₁ ++ "archcraft-fish-3.6.1-1-x86_64.pkg.tar.zst".toList :: l₂ ∧
      matchesExact "fish".toList "archcraft-fish-3.6.1-1-x86_64.pkg.tar.zst".toList = true ∧
      ∀ g ∈ l₁, matchesExact "fish".toList g = false :=
  (C4_first_match_or_notfound
    ["notes.txt".toList, "archcraft-fish-3.6.1-1-x86_64.pkg.tar.zst".toList]
    "fish".toList).1 "archcraft-fish-3.6.1-1-x86_64.pkg.tar.zst".toList (by decide)

/-! ### Claims C1, C2, C3, C10 -/

theorem arch_ne_dash {a : List Char} (h : a = "any".toList ∨ a = "x86_64".toList) :
    ∀ c ∈ a, c ≠ '-' := by
  rcases h with rfl | rfl <;> decide

/-- On a filename with a loose `name-version-release-arch` decomposition,
any name captured by the strict extraction scan is exactly the loose
decomposition's name part. -/
theorem capture_eq_of_decomp {P v r a n : List Char}
    (hva : ∀ c ∈ v, c ≠ '-') (hra : ∀ c ∈ r, c ≠ '-') (ha : ∀ c ∈ a, c ≠ '-')
    (hsome : nameSplitAux tailStrict
        (P ++ '-' :: (v ++ '-' :: (r ++ '-' :: (a ++ zstSuffixL))))
        (P ++ '-' :: (v ++ '-' :: (r ++ '-' :: (a ++ zstSuffixL)))).length = some n) :
    n = P := by
  obtain ⟨k, hk1, hk2, rfl, hnl, ht⟩ := nameSplitAux_eq_some hsome
  obtain ⟨V, R, A, hdec, hsv, hR, hRa, hA, hAnd⟩ := tailStrict_iff.mp ht
  have hf := List.take_append_drop k (P ++ '-' :: (v ++ '-' :: (r ++ '-' :: (a ++ zstSuffixL))))
  rw [hdec] at hf
  have := tails_eq (strictVersion_ne_dash hsv) (all_isDigit_ne_dash hRa) hAnd
    hva hra ha hf
  exact this.1

/-- C1 (amended): every filename returned by `find_package_file` has a
ledger name (`pkg_real_name`) equal to the queried name, to
`archcraft-` followed by the queried name, or — when the strict
extraction regex does not match — to the full filename itself. -/
theorem C1_amended (catalog : List (List Char)) (pkg f : List Char)
    (h : find_package_file catalog pkg = some f) :
    pkg_real_name f = pkg ∨ pkg_real_name f = archcraftL ++ pkg ∨ pkg_real_name f = f := by
  have hm : matchesExact pkg f = true := List.find?_some h
  obtain ⟨p, v, r, a, hp, heq, hv, hva, hr, hra, harch⟩ := matchesExact_iff.mp hm
  subst heq
  rw [pkg_real_name]
  cases hs : nameSplitAux tailStrict
      ((p ++ pkg) ++ '-' :: (v ++ '-' :: (r ++ '-' :: (a ++ zstSuffixL))))
      ((p ++ pkg) ++ '-' :: (v ++ '-' :: (r ++ '-' :: (a ++ zstSuffixL)))).length with
  | none => right; right; rfl
  | some n =>
    have hn : n = p ++ pkg := capture_eq_of_decomp (all_isVChar_ne_dash hva)
      (all_isDigit_ne_dash hra) (arch_ne_dash harch) hs
    rcases hp with rfl | rfl
    · left; rw [hn, List.nil_append]
    · right; left; rw [hn]

/-- C1 counterexample: a query for `fish` returns the `archcraft-`
prefixed entry, whose extracted ledger name is `archcraft-fish`, not
`fish`. -/
theorem C1_counterexample :
    find_package_file ["archcraft-fish-3.6.1-1-x86_64.pkg.tar.zst".toList] "fish".toList =
      some "archcraft-fish-3.6.1-1-x86_64.pkg.tar.zst".toList ∧
    pkg_real_name "archcraft-fish-3.6.1-1-x86_64.pkg.tar.zst".toList =
      "archcraft-fish".toList ∧
    "archcraft-fish".toList ≠ "fish".toList :=
  ⟨by decide, by decide, by decide⟩

/-- Witness for C1 (amended) at the `fish` query. -/
theorem C1_witness :
    pkg_real_name "archcraft-fish-3.6.1-1-x86_64.pkg.tar.zst".toList = "fish".toList ∨
    pkg_real_name "archcraft-fish-3.6.1-1-x86_64.pkg.tar.zst".toList =
      archcraftL ++ "fish".toList ∨
    pkg_real_name "archcraft-fish-3.6.1-1-x86_64.pkg.tar.zst".toList =
      "archcraft-fish-3.6.1-1-x86_64.pkg.tar.zst".toList :=
  C1_amended ["archcraft-fish-3.6.1-1-x86_64.pkg.tar.zst".toList] "fish".toList
    "archcraft-fish-3.6.1-1-x86_64.pkg.tar.zst".toList (by decide)

/-- Characterisation of the shared catalog-regex test: an entry matches
iff it decomposes as a nonempty newline-free name, a nonempty version of
digits and dots, a nonempty numeric release, and arch `any` or
`x86_64`. -/
theorem pkgPatternMatch_iff {e : List Char} :
    pkgPatternMatch e = true ↔
    ∃ n v r a, e = n ++ '-' :: (v ++ '-' :: (r ++ '-' :: (a ++ zstSuffixL))) ∧
      n ≠ [] ∧ noNl n = true ∧ v ≠ [] ∧ v.all isVChar = true ∧ r ≠ [] ∧
      r.all Char.isDigit = true ∧ (a = "any".toList ∨ a = "x86_64".toList) := by
  rw [pkgPatternMatch]
  constructor
  · intro h
    obtain ⟨n, hsome⟩ := Option.isSome_iff_exists.mp h
    obtain ⟨k, hk1, hk2, rfl, hnl, ht⟩ := nameSplitAux_eq_some hsome
    obtain ⟨v, r, a, hdec, hv, hva, hr, hra, harch⟩ := tailLoose_iff.mp ht
    have hne : e.take k ≠ [] := by
      intro hnil
      rcases List.take_eq_nil_iff.mp hnil with h0 | h0
      · omega
      · rw [h0] at hdec
        simp at hdec
    refine ⟨e.take k, v, r, a, ?_, hne, hnl, hv, hva, hr, hra, harch⟩
    conv_lhs => rw [← List.take_append_drop k e]
    rw [hdec]
  · rintro ⟨n, v, r, a, rfl, hn, hnl, hv, hva, hr, hra, harch⟩
    have h1 : 1 ≤ n.length := by
      have := List.length_pos.mpr hn
      omega
    have h2 : n.length ≤ (n ++ '-' :: (v ++ '-' :: (r ++ '-' :: (a ++ zstSuffixL)))).length := by
      rw [List.length_append]
      omega
    have htake : (n ++ '-' :: (v ++ '-' :: (r ++ '-' :: (a ++ zstSuffixL)))).take n.length = n :=
      List.take_left n _
    have hdrop : (n ++ '-' :: (v ++ '-' :: (r ++ '-' :: (a ++ zstSuffixL)))).drop n.length =
        '-' :: (v ++ '-' :: (r ++ '-' :: (a ++ zstSuffixL))) :=
      List.drop_left n _
    have htl : tailLoose ('-' :: (v ++ '-' :: (r ++ '-' :: (a ++ zstSuffixL)))) = true :=
      tailLoose_iff.mpr ⟨v, r, a, rfl, hv, hva, hr, hra, harch⟩
    apply @nameSplitAux_isSome tailLoose _ _ n.length h1 h2
    · rw [htake]; exact hnl
    · rw [hdrop]; exact htl

/-- C2 (amended): `get_all_packages` returns exactly the catalog entries
matching the code's pattern, whose version component is one or more
characters that are each a digit or a dot (the class `[\d\.]+`, which
also admits bare, leading, trailing or repeated dots). -/
theorem C2_amended (catalog : List (List Char)) (e : List Char) :
    e ∈ get_all_packages catalog ↔
    e ∈ catalog ∧
      ∃ n v r a, e = n ++ '-' :: (v ++ '-' :: (r ++ '-' :: (a ++ zstSuffixL))) ∧
        n ≠ [] ∧ noNl n = true ∧ v ≠ [] ∧ v.all isVChar = true ∧ r ≠ [] ∧
        r.all Char.isDigit = true ∧ (a = "any".toList ∨ a = "x86_64".toList) := by
  rw [get_all_packages, List.mem_filter]
  exact and_congr_right fun _ => pkgPatternMatch_iff

/-- C2 counterexample: the entry `a-.-1-any.pkg.tar.zst`, whose version
component `.` contains no digit and so is not grammar-valid per the
spec, is nevertheless returned by `get_all_packages`. -/
theorem C2_counterexample :
    get_all_packages ["a-.-1-any.pkg.tar.zst".toList] = ["a-.-1-any.pkg.tar.zst".toList] ∧
    specValidFilename "a-.-1-any.pkg.tar.zst".toList = false :=
  ⟨by decide, by decide⟩

/-- The extraction in `install_package` either falls back to the full
filename or returns the name part of a strict
`name-version-release-arch` decomposition of it. -/
theorem pkg_real_name_spec (f : List Char) :
    pkg_real_name f = f ∨
    ∃ v r a, f = pkg_real_name f ++ '-' :: (v ++ '-' :: (r ++ '-' :: (a ++ zstSuffixL))) ∧
      strictVersion v = true ∧ r ≠ [] ∧ r.all Char.isDigit = true ∧
      a ≠ [] ∧ ∀ c ∈ a, c ≠ '-' := by
  rw [pkg_real_name]
  cases hs : nameSplitAux tailStrict f f.length with
  | none => left; rfl
  | some n =>
    right
    obtain ⟨k, hk1, hk2, hn, hnl, ht⟩ := nameSplitAux_eq_some hs
    obtain ⟨v, r, a, hdec, hsv, hr, hra, ha, hand⟩ := tailStrict_iff.mp ht
    refine ⟨v, r, a, ?_, hsv, hr, hra, ha, hand⟩
    have hsplit : f = n ++ f.drop k := by
      rw [hn, List.take_append_drop]
    rw [hdec] at hsplit
    exact hsplit

/-- C3 counterexample: resolving `foo` against a catalog whose entry has
the loose version `.` succeeds, but the strict extraction regex fails on
the resolved filename, so the name recorded in the ledger is the full
archive filename. -/
theorem C3_counterexample :
    find_package_file ["foo-.-1-any.pkg.tar.zst".toList] "foo".toList =
      some "foo-.-1-any.pkg.tar.zst".toList ∧
    pkg_real_name "foo-.-1-any.pkg.tar.zst".toList = "foo-.-1-any.pkg.tar.zst".toList :=
  ⟨by decide, by decide⟩

/-- C3 (amended): for every resolved filename, the recorded ledger name
is the name part of a strict `name-version-release-arch` decomposition
when the extraction regex matches, and the full archive filename
otherwise; re-adding the recorded name never creates a second ledger
entry. -/
theorem C3_amended (db : PackageDb) (catalog : List (List Char)) (pkg f : List Char)
    (_h : find_package_file catalog pkg = some f) :
    (pkg_real_name f = f ∨
      ∃ v r a, f = pkg_real_name f ++ '-' :: (v ++ '-' :: (r ++ '-' :: (a ++ zstSuffixL))) ∧
        strictVersion v = true ∧ r ≠ [] ∧ r.all Char.isDigit = true ∧
        a ≠ [] ∧ (∀ c ∈ a, c ≠ '-')) ∧
    (db.add (pkg_real_name f)).add (pkg_real_name f) = db.add (pkg_real_name f) := by
  refine ⟨pkg_real_name_spec f, ?_⟩
  simp [PackageDb.add, Finset.insert_idem]

/-- Witness for C3 (amended) at the `fish` query. -/
theorem C3_witness :
    (pkg_real_name "archcraft-fish-3.6.1-1-x86_64.pkg.tar.zst".toList =
        "archcraft-fish-3.6.1-1-x86_64.pkg.tar.zst".toList ∨
      ∃ v r a, "archcraft-fish-3.6.1-1-x86_64.pkg.tar.zst".toList =
          pkg_real_name "archcraft-fish-3.6.1-1-x86_64.pkg.tar.zst".toList ++
            '-' :: (v ++ '-' :: (r ++ '-' :: (a ++ zstSuffixL))) ∧
        strictVersion v = true ∧ r ≠ [] ∧ r.all Char.isDigit = true ∧
        a ≠ [] ∧ (∀ c ∈ a, c ≠ '-')) ∧
    (PackageDb.empty.add
        (pkg_real_name "archcraft-fish-3.6.1-1-x86_64.pkg.tar.zst".toList)).add
        (pkg_real_name "archcraft-fish-3.6.1-1-x86_64.pkg.tar.zst".toList) =
      PackageDb.empty.add
        (pkg_real_name "archcraft-fish-3.6.1-1-x86_64.pkg.tar.zst".toList) :=
  C3_amended PackageDb.empty ["archcraft-fish-3.6.1-1-x86_64.pkg.tar.zst".toList]
    "fish".toList "archcraft-fish-3.6.1-1-x86_64.pkg.tar.zst".toList (by decide)

/-- C10: an entry built from some prefix, the queried name and a
well-formed tail matches the exact-name pattern iff the prefix is empty
or exactly `archcraft-`. -/
theorem C10_prefix_exactly_archcraft (p pkg v r a : List Char)
    (hv : v ≠ []) (hva : v.all isVChar = true) (hr : r ≠ [])
    (hra : r.all Char.isDigit = true)
    (harch : a = "any".toList ∨ a = "x86_64".toList) :
    matchesExact pkg (p ++ pkg ++ '-' :: (v ++ '-' :: (r ++ '-' :: (a ++ zstSuffixL)))) = true ↔
    (p = [] ∨ p = archcraftL) := by
  constructor
  · intro h
    obtain ⟨q, V, R, A, hq, heq, hV, hVa, hR, hRa, hA⟩ := matchesExact_iff.mp h
    obtain ⟨hx, -, -, -⟩ := tails_eq (all_isVChar_ne_dash hva) (all_isDigit_ne_dash hra)
      (arch_ne_dash harch) (all_isVChar_ne_dash hVa) (all_isDigit_ne_dash hRa)
      (arch_ne_dash hA) heq
    have hpq : p = q := List.append_cancel_right hx
    rw [hpq]
    exact hq
  · intro hp
    exact matchesExact_iff.mpr ⟨p, v, r, a, hp, rfl, hv, hva, hr, hra, harch⟩

/-- Witness for C10: the prefix `foo-` is rejected. -/
theorem C10_witness :
    (matchesExact "fish".toList
      ("foo-".toList ++ "fish".toList ++
        '-' :: ("1".toList ++ '-' :: ("1".toList ++ '-' :: ("any".toList ++ zstSuffixL)))) = true ↔
    ("foo-".toList = [] ∨ "foo-".toList = archcraftL)) :=
  C10_prefix_exactly_archcraft "foo-".toList "fish".toList "1".toList "1".toList
    "any".toList (by decide) (by decide) (by decide) (by decide) (Or.inl rfl)

/-! ### Claim C7: the fetch pipeline -/

theorem extractJsonSpan_eq_none {r : List Char} :
    extractJsonSpan r = none ↔
    findSubstr r startML = none ∨
    ∃ i, findSubstr r startML = some i ∧
      findSubstr (r.drop (i + startML.length)) endML = none := by
  rw [extractJsonSpan]
  cases hf : findSubstr r startML with
  | none => simp
  | some i =>
    cases he : findSubstr (r.drop (i + startML.length)) endML with
    | none => simp [he]
    | some e => simp [he]

theorem extractJsonSpan_eq_some {r sp : List Char} (h : extractJsonSpan r = some sp) :
    ∃ i e, findSubstr r startML = some i ∧
      findSubstr (r.drop (i + startML.length)) endML = some e ∧
      sp = (r.drop (i + startML.length)).take e := by
  cases hf : findSubstr r startML with
  | none => simp [extractJsonSpan, hf] at h
  | some i =>
    cases he : findSubstr (r.drop (i + startML.length)) endML with
    | none => simp [extractJsonSpan, hf, he] at h
    | some e =>
      simp only [extractJsonSpan, hf, he] at h
      exact ⟨i, e, rfl, he, (Option.some.inj h).symm⟩

/-- C7 (amended): the fetch stage fails exactly when the request fails,
the opening marker is absent, the closing marker is absent after it, the
span does not parse as JSON, or the `/payload/tree/items` path is absent
or not an array; items without a string `name` are skipped, never a
failure. -/
theorem C7_amended (resp : Option (List Char)) (parseJson : List Char → Option Json) :
    (fetch_catalog resp parseJson = none ↔
      resp = none ∨
      ∃ r, resp = some r ∧
        (findSubstr r startML = none ∨
         (∃ i, findSubstr r startML = some i ∧
            findSubstr (r.drop (i + startML.length)) endML = none) ∨
         (∃ sp, extractJsonSpan r = some sp ∧ parseJson sp = none) ∨
         (∃ sp j, extractJsonSpan r = some sp ∧ parseJson sp = some j ∧
            treeItems j = none))) ∧
    (∀ it items, itemName it = none → itemNames (it :: items) = itemNames items) ∧
    (∀ it items s, itemName it = some s → itemNames (it :: items) = s :: itemNames items) := by
  refine ⟨?_, ?_, ?_⟩
  · cases resp with
    | none => simp [fetch_catalog]
    | some r =>
      cases hs : extractJsonSpan r with
      | none =>
        refine iff_of_true (by simp [fetch_catalog, hs]) (Or.inr ⟨r, rfl, ?_⟩)
        rcases extractJsonSpan_eq_none.mp hs with h | ⟨i, h1, h2⟩
        · exact Or.inl h
        · exact Or.inr (Or.inl ⟨i, h1, h2⟩)
      | some sp =>
        cases hp : parseJson sp with
        | none =>
          exact iff_of_true (by simp [fetch_catalog, hs, hp])
            (Or.inr ⟨r, rfl, Or.inr (Or.inr (Or.inl ⟨sp, hs, hp⟩))⟩)
        | some j =>
          cases hj : treeItems j with
          | none =>
            exact iff_of_true (by simp [fetch_catalog, hs, hp, hj])
              (Or.inr ⟨r, rfl, Or.inr (Or.inr (Or.inr ⟨sp, j, hs, hp, hj⟩))⟩)
          | some items =>
            refine iff_of_false (by simp [fetch_catalog, hs, hp, hj]) ?_
            rintro (hresp | ⟨r', hr', hcase⟩)
            · exact absurd hresp (by simp)
            · obtain rfl : r = r' := Option.some.inj hr'
              obtain ⟨i₀, e₀, hi, he, -⟩ := extractJsonSpan_eq_some hs
              rcases hcase with h | ⟨i, h1, h2⟩ | ⟨sp', h1, h2⟩ | ⟨sp', j', h1, h2, h3⟩
              · rw [hi] at h; exact absurd h (by simp)
              · obtain rfl : i₀ = i := Option.some.inj (hi.symm.trans h1)
                rw [he] at h2; exact absurd h2 (by simp)
              · obtain rfl : sp = sp' := Option.some.inj (hs.symm.trans h1)
                rw [hp] at h2; exact absurd h2 (by simp)
              · obtain rfl : sp = sp' := Option.some.inj (hs.symm.trans h1)
                obtain rfl : j = j' := Option.some.inj (hp.symm.trans h2)
                rw [hj] at h3; exact absurd h3 (by simp)
  · intro it items h
    simp [itemNames, List.filterMap_cons, h]
  · intro it items s h
    simp [itemNames, List.filterMap_cons, h]

/-- C7 counterexample: a response that contains the opening marker but no
closing marker makes the fetch stage fail even though the request
succeeded, the opening marker is present, JSON parsing always succeeds
and the parsed value carries the `/payload/tree/items` array — a failure
case missing from the claim's list. -/
theorem C7_counterexample :
    fetch_catalog (some (startML ++ "x".toList))
        (fun _ => some (Json.obj [("payload", Json.obj [("tree",
          Json.obj [("items", Json.arr [])])])])) = none ∧
    findSubstr (startML ++ "x".toList) startML = some 0 ∧
    (treeItems (Json.obj [("payload", Json.obj [("tree",
      Json.obj [("items", Json.arr [])])])])).isSome = true :=
  ⟨by decide, by decide, by decide⟩

/-- Witness for C7 (amended): an item that is not even an object is
skipped without failing the listing. -/
theorem C7_witness : itemNames (Json.num 0 :: []) = itemNames [] :=
  (C7_amended none (fun _ => none)).2.1 (Json.num 0) [] rfl
